import Mathlib

/-!
Verification of the agent-control-plane gateway against its specification.

The gateway code is shallowly embedded: each Python function relevant to a
claim is translated into an executable Lean definition that mirrors its
control flow, and the claims are settled as theorems about those
definitions.  Modules covered: cmd/gateway/egress.py and proxy.py (egress
allowlist matching), cmd/gateway/main.py (invocation prelude, upload
staging, progress endpoint, agent listing, audit verifier),
cmd/gateway/docker_discovery.py (ensure_agent_running),
cmd/gateway/lifecycle.py (idle reaper), and the audit hash chain of the
database layer.
-/

/-! ### Egress allowlist matching (egress.is_allowed, proxy._is_allowed)

Both matchers turn a glob pattern into a Python regular expression and call
re.match, which anchors at the start of the URL.  egress.is_allowed first
escapes the dot, proxy._is_allowed escapes nothing.  We model the fragment
of regular expressions these conversions can produce on patterns whose
characters are the wildcard, the dot, or characters with no special regex
meaning: a literal character, the dot wildcard, and the star token standing
for dot-star.  The matchers recurse on a fuel argument so that they stay
structurally recursive and computable by the kernel; every recursive call
shrinks the token list or the input, so fuel above tokens + input never
runs out (proved below as fuel irrelevance). -/

/-- Tokens of the regex fragment produced by the glob-to-regex conversions. -/
inductive RTok where
  | lit : Char → RTok
  | dot : RTok
  | star : RTok
deriving DecidableEq

/-- Python re.match semantics for the token fragment, with fuel: does the
token list match some prefix of the input?  star stands for dot-star and
may consume any number of characters. -/
def reMatchFuel : Nat → List RTok → List Char → Bool
  | 0, _, _ => false
  | _ + 1, [], _ => true
  | _ + 1, RTok.lit _ :: _, [] => false
  | f + 1, RTok.lit c :: ts, x :: xs => x == c && reMatchFuel f ts xs
  | _ + 1, RTok.dot :: _, [] => false
  | f + 1, RTok.dot :: ts, _ :: xs => reMatchFuel f ts xs
  | f + 1, RTok.star :: ts, [] => reMatchFuel f ts []
  | f + 1, RTok.star :: ts, x :: xs =>
      reMatchFuel f ts (x :: xs) || reMatchFuel f (RTok.star :: ts) xs

/-- re.match of a converted pattern against an input, with enough fuel. -/
def reMatchStart (ts : List RTok) (s : List Char) : Bool :=
  reMatchFuel (ts.length + s.length + 1) ts s

/-- Glob matching anchored at the start of the input, with fuel: the pattern
must match some prefix of the input, a star matches any sequence of
characters and every other character only itself. -/
def globMatchFuel : Nat → List Char → List Char → Bool
  | 0, _, _ => false
  | _ + 1, [], _ => true
  | f + 1, p :: ps, [] => if p = '*' then globMatchFuel f ps [] else false
  | f + 1, p :: ps, x :: xs =>
      if p = '*' then globMatchFuel f ps (x :: xs) || globMatchFuel f (p :: ps) xs
      else p == x && globMatchFuel f ps xs

/-- Glob matching anchored at the start, with enough fuel. -/
def globMatchStart (p s : List Char) : Bool :=
  globMatchFuel (p.length + s.length + 1) p s

theorem reMatchFuel_irrel : ∀ (f g : Nat) (ts : List RTok) (s : List Char),
    ts.length + s.length < f → ts.length + s.length < g →
    reMatchFuel f ts s = reMatchFuel g ts s := by
  intro f
  induction f with
  | zero => intro g ts s hf _; exact absurd hf (Nat.not_lt_zero _)
  | succ f ih =>
    intro g ts s hf hg
    cases g with
    | zero => exact absurd hg (Nat.not_lt_zero _)
    | succ g =>
      cases ts with
      | nil => rfl
      | cons t ts =>
        simp only [List.length_cons] at hf hg
        cases t with
        | lit c =>
          cases s with
          | nil => rfl
          | cons x xs =>
            simp only [List.length_cons] at hf hg
            simp only [reMatchFuel]
            rw [ih g ts xs (by omega) (by omega)]
        | dot =>
          cases s with
          | nil => rfl
          | cons x xs =>
            simp only [List.length_cons] at hf hg
            simp only [reMatchFuel]
            exact ih g ts xs (by omega) (by omega)
        | star =>
          cases s with
          | nil =>
            simp only [reMatchFuel]
            exact ih g ts [] (by simp; omega) (by simp; omega)
          | cons x xs =>
            simp only [List.length_cons] at hf hg
            simp only [reMatchFuel]
            rw [ih g ts (x :: xs) (by simp; omega) (by simp; omega),
              ih g (RTok.star :: ts) xs (by simp; omega) (by simp; omega)]

theorem globMatchFuel_irrel : ∀ (f g : Nat) (p s : List Char),
    p.length + s.length < f → p.length + s.length < g →
    globMatchFuel f p s = globMatchFuel g p s := by
  intro f
  induction f with
  | zero => intro g p s hf _; exact absurd hf (Nat.not_lt_zero _)
  | succ f ih =>
    intro g p s hf hg
    cases g with
    | zero => exact absurd hg (Nat.not_lt_zero _)
    | succ g =>
      cases p with
      | nil => rfl
      | cons c ps =>
        simp only [List.length_cons] at hf hg
        cases s with
        | nil =>
          simp only [globMatchFuel]
          rw [ih g ps [] (by simp; omega) (by simp; omega)]
        | cons x xs =>
          simp only [List.length_cons] at hf hg
          simp only [globMatchFuel]
          rw [ih g ps (x :: xs) (by simp; omega) (by simp; omega),
            ih g (c :: ps) xs (by simp; omega) (by simp; omega),
            ih g ps xs (by omega) (by omega)]

/-- The conversion of egress.is_allowed: the dot is escaped before the star
is replaced, so the dot stays a literal and only the star becomes dot-star.
Faithful to the Python regex exactly when every other character of the
pattern has no special regex meaning. -/
def egressTokens (p : List Char) : List RTok :=
  p.map fun c => if c = '*' then RTok.star else RTok.lit c

/-- The conversion of proxy._is_allowed: nothing is escaped, so the dot
keeps its regex meaning of matching any character. -/
def proxyTokens (p : List Char) : List RTok :=
  p.map fun c =>
    if c = '*' then RTok.star else if c = '.' then RTok.dot else RTok.lit c

/-- Characters with no special meaning in a Python regular expression. -/
def regexSafeChar (c : Char) : Bool :=
  !(c ∈ ['.', '^', '$', '*', '+', '?', '(', ')', '[', ']',
         '\x7b', '\x7d', '\\', '|'])

/-- egress.is_allowed: look the agent up in the allowlist, deny when its
pattern list is empty, otherwise allow when some converted pattern
re.match-es the URL. -/
def egressIsAllowed (allowlist : List (String × List String))
    (agent url : String) : Bool :=
  let patterns := (allowlist.lookup agent).getD []
  if patterns.isEmpty then false
  else patterns.any fun p => reMatchStart (egressTokens p.data) url.data

/-- proxy._is_allowed: same lookup and emptiness check, with the conversion
that escapes nothing. -/
def proxyIsAllowed (allowlist : List (String × List String))
    (agent url : String) : Bool :=
  let patterns := (allowlist.lookup agent).getD []
  if patterns.isEmpty then false
  else patterns.any fun p => reMatchStart (proxyTokens p.data) url.data

theorem reMatchFuel_egress_eq_glob : ∀ (f : Nat) (p s : List Char),
    reMatchFuel f (egressTokens p) s = globMatchFuel f p s := by
  intro f
  induction f with
  | zero => intro p s; rfl
  | succ f ih =>
    intro p s
    cases p with
    | nil => rfl
    | cons c ps =>
      by_cases hc : c = '*'
      · subst hc
        cases s with
        | nil =>
          have h1 := ih ps []
          simp only [egressTokens] at h1 ⊢
          simp [reMatchFuel, globMatchFuel, h1]
        | cons x xs =>
          have h1 := ih ps (x :: xs)
          have h2 := ih ('*' :: ps) xs
          simp only [egressTokens] at h1 h2 ⊢
          simp [reMatchFuel, globMatchFuel] at h2 ⊢
          rw [h1, h2]
      · cases s with
        | nil =>
          simp only [egressTokens] at *
          simp [reMatchFuel, globMatchFuel, hc]
        | cons x xs =>
          have h1 := ih ps xs
          simp only [egressTokens] at h1 ⊢
          simp [reMatchFuel, globMatchFuel, hc]
          by_cases hx : x = c
          · subst hx; simp [h1]
          · have hxc : (x == c) = false := beq_eq_false_iff_ne.mpr hx
            have hcx : (c == x) = false :=
              beq_eq_false_iff_ne.mpr fun h => hx h.symm
            simp [hxc, hcx]

theorem reMatchFuel_proxy_eq_glob : ∀ (f : Nat) (p s : List Char),
    '.' ∉ p → reMatchFuel f (proxyTokens p) s = globMatchFuel f p s := by
  intro f
  induction f with
  | zero => intro p s _; rfl
  | succ f ih =>
    intro p s hnd
    cases p with
    | nil => rfl
    | cons c ps =>
      have hcd : c ≠ '.' := fun h => hnd (by simp [h])
      have hnd2 : '.' ∉ ps := fun h => hnd (List.mem_cons_of_mem _ h)
      by_cases hc : c = '*'
      · subst hc
        cases s with
        | nil =>
          have h1 := ih ps [] hnd2
          simp only [proxyTokens] at h1 ⊢
          simp [reMatchFuel, globMatchFuel, h1]
        | cons x xs =>
          have h1 := ih ps (x :: xs) hnd2
          have h2 := ih ('*' :: ps) xs hnd
          simp only [proxyTokens] at h1 h2 ⊢
          simp [reMatchFuel, globMatchFuel] at h2 ⊢
          rw [h1, h2]
      · cases s with
        | nil =>
          simp only [proxyTokens] at *
          simp [reMatchFuel, globMatchFuel, hc, hcd]
        | cons x xs =>
          have h1 := ih ps xs hnd2
          simp only [proxyTokens] at h1 ⊢
          simp [reMatchFuel, globMatchFuel, hc, hcd]
          by_cases hx : x = c
          · subst hx; simp [h1]
          · have hxc : (x == c) = false := beq_eq_false_iff_ne.mpr hx
            have hcx : (c == x) = false :=
              beq_eq_false_iff_ne.mpr fun h => hx h.symm
            simp [hxc, hcx]

theorem reMatch_egress_eq_glob (p s : List Char) :
    reMatchStart (egressTokens p) s = globMatchStart p s := by
  unfold reMatchStart globMatchStart
  rw [show (egressTokens p).length = p.length from List.length_map _ _]
  exact reMatchFuel_egress_eq_glob _ p s

theorem reMatch_proxy_eq_glob (p s : List Char) (hnd : '.' ∉ p) :
    reMatchStart (proxyTokens p) s = globMatchStart p s := by
  unfold reMatchStart globMatchStart
  rw [show (proxyTokens p).length = p.length from List.length_map _ _]
  exact reMatchFuel_proxy_eq_glob _ p s hnd

theorem listAnyCongr {α : Type} {l : List α} {f g : α → Bool}
    (h : ∀ a ∈ l, f a = g a) : l.any f = l.any g := by
  induction l with
  | nil => rfl
  | cons a l ih =>
    simp only [List.any_cons, h a (List.mem_cons_self a l)]
    rw [ih fun b hb => h b (List.mem_cons_of_mem _ hb)]

/-- C3 counterexample: the CONNECT proxy matcher does not escape the dot,
so the pattern x.z, made only of literal characters, is allowed to match
the URL xyz although glob matching anchored at the start rejects it.  The
claimed equivalence between the allow decision and glob matching therefore
fails for a pattern consisting only of literal characters. -/
theorem proxy_allow_not_glob_on_dot :
    proxyIsAllowed [("a", ["x.z"])] "a" "xyz" = true ∧
    globMatchStart "x.z".data "xyz".data = false := by
  constructor <;> decide

/-- C3 (corrected): an empty allowlist denies every destination under both
matchers.  The allow decision of egress.is_allowed, which escapes the dot,
is equivalent to glob matching anchored at the URL start for patterns whose
characters are the wildcard, the dot, or regex-safe characters; the allow
decision of proxy._is_allowed, which escapes nothing, is equivalent to that
glob matching only when the patterns also contain no dot. -/
theorem egress_allowlist_glob_equiv (allowlist : List (String × List String))
    (agent url : String) :
    ((allowlist.lookup agent).getD [] = [] →
      egressIsAllowed allowlist agent url = false ∧
      proxyIsAllowed allowlist agent url = false) ∧
    ((∀ p ∈ (allowlist.lookup agent).getD [], ∀ c ∈ p.data,
        c = '*' ∨ c = '.' ∨ regexSafeChar c = true) →
      egressIsAllowed allowlist agent url =
        ((allowlist.lookup agent).getD []).any
          fun p => globMatchStart p.data url.data) ∧
    ((∀ p ∈ (allowlist.lookup agent).getD [], ∀ c ∈ p.data,
        (c = '*' ∨ regexSafeChar c = true) ∧ c ≠ '.') →
      proxyIsAllowed allowlist agent url =
        ((allowlist.lookup agent).getD []).any
          fun p => globMatchStart p.data url.data) := by
  refine ⟨fun hnil => ?_, fun _ => ?_, fun hsafe => ?_⟩
  · simp [egressIsAllowed, proxyIsAllowed, hnil]
  · cases hemp : ((allowlist.lookup agent).getD []).isEmpty with
    | true =>
      have hnil := List.isEmpty_iff.mp hemp
      simp [egressIsAllowed, hnil]
    | false =>
      simp only [egressIsAllowed, hemp, Bool.false_eq_true, if_false]
      exact listAnyCongr fun p _ => reMatch_egress_eq_glob p.data url.data
  · cases hemp : ((allowlist.lookup agent).getD []).isEmpty with
    | true =>
      have hnil := List.isEmpty_iff.mp hemp
      simp [proxyIsAllowed, hnil]
    | false =>
      simp only [proxyIsAllowed, hemp, Bool.false_eq_true, if_false]
      refine listAnyCongr fun p hp => reMatch_proxy_eq_glob p.data url.data ?_
      exact fun hdot => (hsafe p hp '.' hdot).2 rfl

/-- C3 witness: the equivalences evaluated on a concrete allowlist whose
pattern uses only safe literal characters and the wildcard. -/
theorem egress_allowlist_glob_equiv_witness :
    egressIsAllowed [("a", ["https://api+x.com/*"])] "a" "https://apiVx.com/q"
        = false ∧
    (["https://api+x.com/*"] : List String).any
        (fun p => globMatchStart p.data "https://apiVx.com/q".data) = false ∧
    egressIsAllowed [("a", ["https://api.com/*"])] "a" "https://api.com/q"
        = ((["https://api.com/*"] : List String).any
          fun p => globMatchStart p.data "https://api.com/q".data) ∧
    proxyIsAllowed [("a", ["ab*"])] "a" "abcd"
        = ((["ab*"] : List String).any
          fun p => globMatchStart p.data "abcd".data) ∧
    egressIsAllowed [] "a" "https://x" = false := by
  refine ⟨by decide, by decide, ?_, ?_, ?_⟩
  · exact (egress_allowlist_glob_equiv [("a", ["https://api.com/*"])] "a"
      "https://api.com/q").2.1 (by decide)
  · exact (egress_allowlist_glob_equiv [("a", ["ab*"])] "a" "abcd").2.2
      (by decide)
  · exact ((egress_allowlist_glob_equiv [] "a" "https://x").1 (by decide)).1

/-! ### Audit log hash chain (C1, C2)

The audit_log schema created by cmd/gateway/main.py init_db and by the
alembic migration carries the ten record columns; the verifier and the
per-execution audit endpoint additionally read prev_hash and entry_hash
columns, but the code that fills them on insert (a database-side trigger)
is not among the repository files.  The chain-building insert is therefore
modelled from the spec; the verifier of /audit/integrity-check is
translated from cmd/gateway/main.py verify_audit_integrity. -/

/-- The ten record columns of an audit_log row, as inserted by
database.audit_invoke_request and database.audit_invoke_response. -/
structure AuditFields where
  ident : String
  timestamp : String
  user_token : String
  thread_id : String
  actor : String
  action : String
  resource : String
  status_code : Nat
  payload : Option String
  error_msg : Option String
deriving DecidableEq

/-- Length-prefixed encoding of one field, so that the serialization of a
row is deterministic. -/
def encStr (s : String) : String := toString s.length ++ ":" ++ s

/-- Encoding of a nullable field. -/
def encOpt : Option String → String
  | none => "n"
  | some s => "s" ++ encStr s

/-- Modelled from the spec: canonical_serialize produces a deterministic
byte sequence over the ten record fields (id, timestamp, user_token,
thread_id, actor, action, resource, status_code, payload, error_msg). -/
def canonicalSerialize (f : AuditFields) : String :=
  encStr f.ident ++ encStr f.timestamp ++ encStr f.user_token ++
    encStr f.thread_id ++ encStr f.actor ++ encStr f.action ++
    encStr f.resource ++ encStr (toString f.status_code) ++
    encOpt f.payload ++ encOpt f.error_msg

/-- A stored audit_log row: the record fields plus the two hash columns. -/
structure AuditRow where
  fields : AuditFields
  prev_hash : String
  entry_hash : String
deriving DecidableEq

/-- Modelled from the spec: the previous hash of the first entry is zero. -/
def zeroHash : String := "0"

/-- The entry hash of the current last entry, or the zero hash when the log
is empty. -/
def lastEntryHash (log : List AuditRow) : String :=
  match log.getLast? with
  | none => zeroHash
  | some e => e.entry_hash

/-- Modelled from the spec: on each insert the store selects the current
last entry hash, computes the new entry hash over the previous hash
concatenated with the canonical serialization, and inserts the row.  The
hash function H stands for SHA-256. -/
def appendAudit (H : String → String) (log : List AuditRow)
    (f : AuditFields) : List AuditRow :=
  let prev := lastEntryHash log
  log ++ [⟨f, prev, H (prev ++ canonicalSerialize f)⟩]

/-- A log built by appending each request or response record in order. -/
def buildAuditLog (H : String → String) (fs : List AuditFields) :
    List AuditRow :=
  fs.foldl (appendAudit H) []

/-- The hash-chain invariant walked from a given previous hash: each entry
records that previous hash, its entry hash is the hash of the previous
hash concatenated with its canonical serialization, and the rest of the
log chains from its entry hash. -/
def chainOkFrom (H : String → String) : String → List AuditRow → Bool
  | _, [] => true
  | prev, e :: rest =>
    e.prev_hash == prev &&
      e.entry_hash == H (prev ++ canonicalSerialize e.fields) &&
      chainOkFrom H e.entry_hash rest

/-- The hash-chain invariant of a whole log, starting from the zero hash. -/
def chainOk (H : String → String) (log : List AuditRow) : Bool :=
  chainOkFrom H zeroHash log

/-- Chain building with an explicit running previous hash; equal to the
fold of appendAudit, and convenient for induction. -/
def chainBuild (H : String → String) : String → List AuditFields → List AuditRow
  | _, [] => []
  | prev, f :: fs =>
    let h := H (prev ++ canonicalSerialize f)
    ⟨f, prev, h⟩ :: chainBuild H h fs

theorem lastEntryHash_append (log : List AuditRow) (e : AuditRow) :
    lastEntryHash (log ++ [e]) = e.entry_hash := by
  induction log with
  | nil => rfl
  | cons a l ih =>
    simp only [lastEntryHash, List.cons_append, List.getLast?_cons_cons] at ih ⊢
    cases l with
    | nil => rfl
    | cons b l2 => simpa [lastEntryHash] using ih

theorem foldl_appendAudit_eq_chainBuild (H : String → String)
    (fs : List AuditFields) :
    ∀ log : List AuditRow,
      fs.foldl (appendAudit H) log = log ++ chainBuild H (lastEntryHash log) fs := by
  induction fs with
  | nil => intro log; simp [chainBuild]
  | cons f fs ih =>
    intro log
    simp only [List.foldl_cons]
    rw [ih (appendAudit H log f)]
    simp only [appendAudit, chainBuild]
    rw [lastEntryHash_append]
    simp [List.append_assoc]

theorem chainOkFrom_chainBuild (H : String → String) (fs : List AuditFields) :
    ∀ prev : String, chainOkFrom H prev (chainBuild H prev fs) = true := by
  induction fs with
  | nil => intro prev; rfl
  | cons f fs ih =>
    intro prev
    simp only [chainBuild, chainOkFrom]
    simp [ih]

/-- C1 (confirmed, spec-modelled): every log built by appending entries in
order satisfies the hash-chain invariant: each entry hash is the hash of
the previous hash concatenated with the canonical serialization of the ten
record fields, each prev_hash equals the entry hash of the preceding
entry, and the first prev_hash is the zero hash. -/
theorem audit_chain_invariant_holds (H : String → String)
    (fs : List AuditFields) : chainOk H (buildAuditLog H fs) = true := by
  unfold chainOk buildAuditLog
  rw [foldl_appendAudit_eq_chainBuild H fs []]
  simpa [lastEntryHash] using chainOkFrom_chainBuild H fs zeroHash

/-- One record of the compromised_entries list reported by the verifier. -/
structure CompEntry where
  thread_id : String
  timestamp : String
  action : String
  error : String
deriving DecidableEq

/-- The literal constant the verifier compares every entry hash against. -/
def tamperedConst : String := "tampered_hash_value_breaks_chain"

/-- The verifier reports thread_id, timestamp, action and an error text for
a compromised entry. -/
def mkComp (e : AuditRow) (err : String) : CompEntry :=
  ⟨e.fields.thread_id, e.fields.timestamp, e.fields.action, err⟩

/-- The two checks verify_audit_integrity performs on one entry: equality
of the entry hash with the tampered constant, and, past the first entry,
equality of prev_hash with the entry hash of the preceding entry.  No hash
is recomputed. -/
def entryChecks (prev : Option AuditRow) (e : AuditRow) : List CompEntry :=
  (if e.entry_hash = tamperedConst
    then [mkComp e "Hash manually tampered"] else []) ++
  (match prev with
    | none => []
    | some p =>
      if e.prev_hash = p.entry_hash then []
      else [mkComp e "Broken chain link"])

/-- The verifier walk over all entries in order, carrying the preceding
entry. -/
def compWalk : Option AuditRow → List AuditRow → List CompEntry
  | _, [] => []
  | prev, e :: rest => entryChecks prev e ++ compWalk (some e) rest

/-- The response of GET /audit/integrity-check.  On an empty log the code
returns no compromised_count key, modelled as none. -/
structure VerifyResult where
  verified : Bool
  total_entries : Nat
  compromised_count : Option Nat
  compromised_entries : List CompEntry
deriving DecidableEq

/-- verify_audit_integrity of cmd/gateway/main.py: walk all entries in
order, collect the compromised records, report the first ten. -/
def verifyAuditIntegrity (log : List AuditRow) : VerifyResult :=
  match log with
  | [] => ⟨true, 0, none, []⟩
  | e :: rest =>
    let comp := compWalk none (e :: rest)
    ⟨comp.length == 0, (e :: rest).length, some comp.length, comp.take 10⟩

/-- Overwriting the entry hash of the entry at a given position, leaving
every other column in place. -/
def overwriteHash : List AuditRow → Nat → String → List AuditRow
  | [], _, _ => []
  | e :: rest, 0, h => { e with entry_hash := h } :: rest
  | e :: rest, n + 1, h => e :: overwriteHash rest n h

theorem overwriteHash_length (c : String) :
    ∀ (L : List AuditRow) (n : Nat),
      (overwriteHash L n c).length = L.length := by
  intro L
  induction L with
  | nil => intro n; rfl
  | cons e rest ih =>
    intro n
    cases n with
    | zero => rfl
    | succ k => simp [overwriteHash, ih k]

theorem ifListNilNot {α : Type} {P : Prop} [Decidable P] {x : α}
    (h : (if P then [x] else []) = []) : ¬P := by
  intro hP
  simp [hP] at h

theorem ifListNilPos {α : Type} {P : Prop} [Decidable P] {x : α}
    (h : (if P then [] else [x]) = []) : P := by
  by_cases hP : P
  · exact hP
  · simp [hP] at h

theorem compWalk_overwrite (c : String) :
    ∀ (L : List AuditRow) (prev : Option AuditRow) (n : Nat)
      (en en1 : AuditRow),
      compWalk prev L = [] →
      L[n]? = some en → L[n + 1]? = some en1 →
      c ≠ en.entry_hash →
      compWalk prev (overwriteHash L n c) =
        (if c = tamperedConst
          then [mkComp en "Hash manually tampered"] else []) ++
          [mkComp en1 "Broken chain link"] := by
  intro L
  induction L with
  | nil =>
    intro prev n en en1 _ hgn
    simp at hgn
  | cons e rest ih =>
    intro prev n en en1 hclean hgn hgn1 hne
    have hclean2 : entryChecks prev e ++ compWalk (some e) rest = [] := by
      simpa [compWalk] using hclean
    obtain ⟨hch, hcw⟩ := List.append_eq_nil.mp hclean2
    cases n with
    | zero =>
      have he : en = e := by simpa using hgn.symm
      subst he
      cases rest with
      | nil => simp at hgn1
      | cons f rest2 =>
        have hf : en1 = f := by simpa using hgn1.symm
        subst hf
        unfold entryChecks at hch
        obtain ⟨hmagic, hlink⟩ := List.append_eq_nil.mp hch
        have hcw2 : entryChecks (some en) en1 ++ compWalk (some en1) rest2 = [] := by
          simpa [compWalk] using hcw
        obtain ⟨hchf, hcw3⟩ := List.append_eq_nil.mp hcw2
        unfold entryChecks at hchf
        obtain ⟨hfmagic, hflink⟩ := List.append_eq_nil.mp hchf
        have hfprev : en1.prev_hash = en.entry_hash := ifListNilPos hflink
        have hfm : ¬en1.entry_hash = tamperedConst := ifListNilNot hfmagic
        have hnec : ¬en1.prev_hash = c := by
          rw [hfprev]; exact fun h => hne h.symm
        simp only [overwriteHash, compWalk, entryChecks]
        rw [hcw3]
        cases prev with
        | none => simp [mkComp, hfm, hnec]
        | some p =>
          have hplink : en.prev_hash = p.entry_hash := ifListNilPos hlink
          simp [mkComp, hfm, hnec, hplink]
    | succ k =>
      have hgn2 : rest[k]? = some en := by simpa using hgn
      have hgn12 : rest[k + 1]? = some en1 := by simpa using hgn1
      simp only [overwriteHash, compWalk]
      rw [hch]
      simpa using ih (some e) k en en1 hcw hgn2 hgn12 hne

/-- C2 (corrected): the verifier never recomputes hashes; it checks only
the tampered-constant equality and the prev_hash linkage.  On a log that
verifies clean, overwriting the entry hash of an entry that has a
successor with a constant different from that entry hash makes the check
return verified false with at least one compromised entry, and the entry
listed is the immediately following one (within the first ten reported),
not the tampered entry itself. -/
theorem audit_verifier_flags_successor (L : List AuditRow) (n : Nat)
    (c : String) (en en1 : AuditRow)
    (hclean : (verifyAuditIntegrity L).verified = true)
    (hgn : L[n]? = some en) (hgn1 : L[n + 1]? = some en1)
    (hc : c ≠ en.entry_hash) :
    (verifyAuditIntegrity (overwriteHash L n c)).verified = false ∧
    1 ≤ ((verifyAuditIntegrity (overwriteHash L n c)).compromised_count).getD 0 ∧
    mkComp en1 "Broken chain link" ∈
      (verifyAuditIntegrity (overwriteHash L n c)).compromised_entries := by
  cases L with
  | nil => simp at hgn
  | cons e rest =>
    have hcw : compWalk none (e :: rest) = [] := by
      have h0 : (compWalk none (e :: rest)).length = 0 := by
        simpa [verifyAuditIntegrity] using hclean
      exact List.length_eq_zero.mp h0
    have hw := compWalk_overwrite c (e :: rest) none n en en1 hcw hgn hgn1 hc
    have hlen : (overwriteHash (e :: rest) n c).length = (e :: rest).length :=
      overwriteHash_length c (e :: rest) n
    obtain ⟨e2, rest2, heq⟩ :
        ∃ e2 rest2, overwriteHash (e :: rest) n c = e2 :: rest2 := by
      cases haux : overwriteHash (e :: rest) n c with
      | nil => rw [haux] at hlen; simp at hlen
      | cons a b => exact ⟨a, b, rfl⟩
    rw [heq] at hw ⊢
    by_cases hmagic : c = tamperedConst
    · simp [verifyAuditIntegrity, hw, hmagic]
    · simp [verifyAuditIntegrity, hw, hmagic]

/-- The hash function standing in for SHA-256 in the concrete evaluations:
fully computable so that the kernel can evaluate the chain. -/
def hashLen (s : String) : String := "h" ++ toString s.length

/-- Concrete record fields for the demonstration log. -/
def demoFields (i : Nat) (act : String) : AuditFields :=
  ⟨toString i, toString i, "tok", "t1", "gateway", act, "hello/invoke",
    0, none, none⟩

/-- A four-entry audit log as two invocations produce it, built by the
chain-appending insert. -/
def demoLog : List AuditRow :=
  buildAuditLog hashLen
    [demoFields 1 "invoke_request", demoFields 2 "invoke_response",
     demoFields 3 "invoke_request", demoFields 4 "invoke_response"]

/-- The row of demoLog at a position, with a default for out of range. -/
def demoRow (i : Nat) : AuditRow :=
  (demoLog[i]?).getD ⟨⟨"", "", "", "", "", "", "", 0, none, none⟩, "", ""⟩

/-- C2 counterexample: overwriting the entry hash of the final entry of a
clean four-entry log with the arbitrary constant deadbeef changes the
stored log, yet the verifier still returns verified true with no
compromised entries, because it never recomputes any hash.  This refutes
the claim that any such overwrite yields verified false with the entry
listed. -/
theorem audit_verifier_misses_tampered_hash :
    overwriteHash demoLog 3 "deadbeef" ≠ demoLog ∧
    (verifyAuditIntegrity (overwriteHash demoLog 3 "deadbeef")).verified
      = true ∧
    (verifyAuditIntegrity
        (overwriteHash demoLog 3 "deadbeef")).compromised_entries = [] := by
  refine ⟨by decide, by decide, by decide⟩

/-- C2 witness: the amended theorem evaluated on the four-entry log with
entry 2 (index 1) overwritten by the constant XX: the verifier reports
verified false and lists entry 3 (index 2). -/
theorem audit_verifier_flags_successor_witness :
    (verifyAuditIntegrity demoLog).verified = true ∧
    demoLog[1]? = some (demoRow 1) ∧
    demoLog[2]? = some (demoRow 2) ∧
    "XX" ≠ (demoRow 1).entry_hash ∧
    ((verifyAuditIntegrity (overwriteHash demoLog 1 "XX")).verified = false ∧
      1 ≤ ((verifyAuditIntegrity
        (overwriteHash demoLog 1 "XX")).compromised_count).getD 0 ∧
      mkComp (demoRow 2) "Broken chain link" ∈
        (verifyAuditIntegrity
          (overwriteHash demoLog 1 "XX")).compromised_entries) :=
  ⟨by decide, by decide, by decide, by decide,
    audit_verifier_flags_successor demoLog 1 "XX" (demoRow 1) (demoRow 2)
      (by decide) (by decide) (by decide) (by decide)⟩

/-! ### Multipart upload staging (invoke_async of cmd/gateway/main.py)

The staging loop runs after the job row and audit entry are written: for
each uploaded file it takes the basename of the filename (defaulting to
input.bin when the filename is falsy), skips the names empty, dot and
dot-dot, raises 413 when the content exceeds MAX_BYTES, and otherwise
writes the file.  Files written before an oversized one stay on disk. -/

/-- The characters after the last slash, computed left to right. -/
def afterLastSlash (l : List Char) : List Char :=
  l.foldl (fun acc c => if c = '/' then [] else acc ++ [c]) []

/-- os.path.basename on POSIX: the part after the last slash. -/
def pyBasename (s : String) : String :=
  String.mk (afterLastSlash s.data)

/-- An uploaded file: its client-supplied filename and content size. -/
structure UploadFile where
  filename : String
  size : Nat
deriving DecidableEq

/-- The staged name of an upload: basename of the filename, with the
Python falsy default input.bin for an empty filename. -/
def effName (f : UploadFile) : String :=
  pyBasename (if f.filename = "" then "input.bin" else f.filename)

/-- Names the staging loop skips. -/
def skippedName (s : String) : Bool :=
  s = "" || s = "." || s = ".."

/-- The staging loop: returns the staged file names in order together with
the HTTP error status, 413 as soon as one file exceeds the limit.  Files
staged before the oversized one are kept, mirroring that the code has no
cleanup on failure. -/
def stageFiles (maxBytes : Nat) : List UploadFile → List String × Option Nat
  | [] => ([], none)
  | f :: rest =>
    let fname := effName f
    if skippedName fname then stageFiles maxBytes rest
    else if maxBytes < f.size then ([], some 413)
    else
      let r := stageFiles maxBytes rest
      (fname :: r.1, r.2)

/-- C4 counterexample: with a limit of 100 bytes, a request carrying a
100-byte file followed by a 101-byte file fails with 413, yet the first
file has already been staged, so partial staged files remain. -/
theorem staging_leaves_partial_on_413 :
    stageFiles 100 [⟨"a.txt", 100⟩, ⟨"b.txt", 101⟩] = (["a.txt"], some 413) := by
  decide

/-- C4 (corrected): a non-skipped file of exactly MAX_UPLOAD_BYTES is
staged without error and one byte more fails the request with 413; the
request errors with 413 exactly when some non-skipped file exceeds the
limit; but staging is not atomic: the files staged before the first
oversized one remain. -/
theorem upload_staging_behavior (maxBytes : Nat) (nm : String)
    (files : List UploadFile)
    (hnm : skippedName (effName ⟨nm, maxBytes⟩) = false) :
    (stageFiles maxBytes [⟨nm, maxBytes⟩]).2 = none ∧
    (stageFiles maxBytes [⟨nm, maxBytes + 1⟩]).2 = some 413 ∧
    (stageFiles maxBytes files).2 =
      (if files.any (fun f => !skippedName (effName f) && maxBytes < f.size)
        then some 413 else none) := by
  refine ⟨?_, ?_, ?_⟩
  · have hle : ¬maxBytes < (⟨nm, maxBytes⟩ : UploadFile).size := by simp
    simp [stageFiles, hnm, hle]
  · have heff : effName ⟨nm, maxBytes + 1⟩ = effName ⟨nm, maxBytes⟩ := rfl
    have hlt : maxBytes < (⟨nm, maxBytes + 1⟩ : UploadFile).size := by simp
    simp [stageFiles, heff, hnm, hlt]
  · induction files with
    | nil => simp [stageFiles]
    | cons f rest ih =>
      by_cases hsk : skippedName (effName f) = true
      · simp [stageFiles, hsk, ih]
      · have hsk2 : skippedName (effName f) = false := by
          cases h : skippedName (effName f)
          · rfl
          · exact absurd h hsk
        by_cases hbig : maxBytes < f.size
        · simp [stageFiles, hsk2, hbig]
        · simp [stageFiles, hsk2, hbig, ih]

/-- C4 witness: the boundary behavior and the error characterization
evaluated at a 100-byte limit with a plainly named file. -/
theorem upload_staging_behavior_witness :
    skippedName (effName ⟨"f.txt", 100⟩) = false ∧
    ((stageFiles 100 [⟨"f.txt", 100⟩]).2 = none ∧
      (stageFiles 100 [⟨"f.txt", 101⟩]).2 = some 413 ∧
      (stageFiles 100 [⟨"ok.bin", 7⟩]).2 =
        (if [⟨"ok.bin", 7⟩].any
            (fun f : UploadFile =>
              !skippedName (effName f) && 100 < f.size)
          then some 413 else none)) :=
  ⟨by decide, upload_staging_behavior 100 "f.txt" [⟨"ok.bin", 7⟩] (by decide)⟩

/-! ### Container host model (docker_discovery.py, lifecycle.py)

A container as the Docker queries see it: the compose service label, the
container name, the agent.enabled label and whether it is running.  A
DockerState is one consistent snapshot of the container host together with
the in-memory AGENTS running map; the Docker name filter matches
containers whose name contains the queried string. -/

/-- One container of the host snapshot. -/
structure DContainer where
  service : Option String
  cname : String
  agentEnabled : Bool
  running : Bool
deriving DecidableEq

/-- One consistent snapshot: the host containers and the AGENTS keys. -/
structure DockerState where
  clientAvailable : Bool
  containers : List DContainer
  agents : List String
deriving DecidableEq

/-- Whether the needle occurs in the haystack, for the Docker name filter. -/
def strContains (hay needle : String) : Bool :=
  if needle.data = [] then true
  else containsRun hay.data needle.data
where
  /-- Does the pattern occur as a contiguous run of the list. -/
  containsRun : List Char → List Char → Bool
    | [], _ => false
    | x :: xs, p => List.isPrefixOf p (x :: xs) || containsRun xs p

/-- The loop over the name-filtered containers at the end of
ensure_agent_running: return true at the first container labeled
agent.enabled, starting it when stopped; false when none is labeled. -/
def ensureByNameLoop : List DContainer → Bool × List String
  | [] => (false, [])
  | c :: rest =>
    if c.agentEnabled then (true, if c.running then [] else [c.cname])
    else ensureByNameLoop rest

/-- docker_discovery.ensure_agent_running: with no client, report whether
the agent is in the AGENTS map.  Otherwise query running containers with
the compose-service label: nonempty means already running.  Then query all
containers with that label: when one exists and its first element is
stopped, start it, sleep two seconds, and return true without polling the
registry.  Finally fall back to the name filter.  The second component
lists the containers the call asked the host to start. -/
def ensureAgentRunning (st : DockerState) (agent : String) :
    Bool × List String :=
  if st.clientAvailable = false then (st.agents.contains agent, [])
  else
    let byLabelRunning := st.containers.filter fun c =>
      c.agentEnabled && c.service == some agent && c.running
    if byLabelRunning.isEmpty = false then (true, [])
    else
      let byLabelAll := st.containers.filter fun c =>
        c.agentEnabled && c.service == some agent
      match byLabelAll with
      | c0 :: _ =>
        if c0.running = false then (true, [c0.cname])
        else ensureByNameLoop
          (st.containers.filter fun c => strContains c.cname agent)
      | [] =>
        ensureByNameLoop
          (st.containers.filter fun c => strContains c.cname agent)

/-- C5 counterexample: the host holds one stopped agent-labeled container
for agent a and the running map is empty.  ensure_agent_running starts the
container and returns true at once, although the name does not appear in
the running map: the code never polls refresh up to a deadline, it sleeps
a fixed two seconds and reports success unconditionally. -/
theorem ensure_running_true_without_registry :
    (ensureAgentRunning
        ⟨true, [⟨some "a", "ctr", true, false⟩], []⟩ "a")
      = (true, ["ctr"]) ∧
    (⟨true, [⟨some "a", "ctr", true, false⟩], []⟩ :
        DockerState).agents.contains "a" = false := by
  constructor <;> decide

theorem ensureByNameLoop_fst (l : List DContainer) :
    (ensureByNameLoop l).1 = l.any fun c => c.agentEnabled := by
  induction l with
  | nil => rfl
  | cons c rest ih =>
    by_cases hc : c.agentEnabled = true
    · simp [ensureByNameLoop, hc]
    · have hc2 : c.agentEnabled = false := by
        cases h : c.agentEnabled
        · rfl
        · exact absurd h hc
      simp [ensureByNameLoop, hc2, ih]

theorem anyFilter {α : Type} (l : List α) (p q : α → Bool) :
    (l.filter p).any q = l.any fun a => p a && q a := by
  induction l with
  | nil => rfl
  | cons a l ih =>
    cases hp : p a with
    | false => simp [List.filter_cons, hp, ih]
    | true => simp [List.filter_cons, hp, ih]

/-- C5 (corrected): the result of ensure_agent_running is exactly this:
with the client unavailable it reports membership in the running map; with
the client available it returns true precisely when some container carries
the agent.enabled label and either the compose-service label of the agent
or a name matching the name filter.  In particular it returns true for a
stopped container it has just asked the host to start, after a fixed sleep
and without polling the registry until the name appears. -/
theorem ensure_running_characterization (st : DockerState) (agent : String) :
    (ensureAgentRunning st agent).1 =
      (if st.clientAvailable then
        st.containers.any fun c =>
          c.agentEnabled && (c.service == some agent
            || strContains c.cname agent)
      else st.agents.contains agent) := by
  cases hcl : st.clientAvailable with
  | false => simp [ensureAgentRunning, hcl]
  | true =>
    cases hrun : (st.containers.filter fun c =>
        c.agentEnabled && c.service == some agent && c.running).isEmpty with
    | false =>
      have hne : (st.containers.filter fun c =>
          c.agentEnabled && c.service == some agent && c.running) ≠ [] := by
        intro h
        rw [h] at hrun
        simp at hrun
      obtain ⟨c, hc⟩ := List.exists_mem_of_ne_nil _ hne
      rw [List.mem_filter] at hc
      have hany : (st.containers.any fun c =>
          c.agentEnabled && (c.service == some agent
            || strContains c.cname agent)) = true := by
        refine List.any_eq_true.mpr ⟨c, hc.1, ?_⟩
        have h2 := hc.2
        simp only [Bool.and_eq_true] at h2
        simp [h2.1.1, h2.1.2]
      simp [ensureAgentRunning, hcl, hrun, hany]
    | true =>
      have hfilnil : (st.containers.filter fun c =>
          c.agentEnabled && c.service == some agent && c.running) = [] :=
        List.isEmpty_iff.mp hrun
      cases hall : st.containers.filter
          (fun c => c.agentEnabled && c.service == some agent) with
      | cons c0 tl =>
        have hc0 : c0 ∈ st.containers ∧
            (c0.agentEnabled && c0.service == some agent) = true :=
          List.mem_filter.mp (by rw [hall]; exact List.mem_cons_self _ _)
        cases hc0run : c0.running with
        | false =>
          have hany : (st.containers.any fun c =>
              c.agentEnabled && (c.service == some agent
                || strContains c.cname agent)) = true := by
            refine List.any_eq_true.mpr ⟨c0, hc0.1, ?_⟩
            have h2 := hc0.2
            simp only [Bool.and_eq_true] at h2
            simp [h2.1, h2.2]
          simp [ensureAgentRunning, hcl, hrun, hall, hc0run, hany]
        | true =>
          exfalso
          have hmem : c0 ∈ st.containers.filter fun c =>
              c.agentEnabled && c.service == some agent && c.running :=
            List.mem_filter.mpr ⟨hc0.1, by simp only [Bool.and_eq_true] at hc0 ⊢
                                           exact ⟨hc0.2, hc0run⟩⟩
          rw [hfilnil] at hmem
          simp at hmem
      | nil =>
        have hnosvc : ∀ c ∈ st.containers,
            (c.agentEnabled && c.service == some agent) = false := by
          intro c hcm
          cases h : (c.agentEnabled && c.service == some agent) with
          | false => rfl
          | true =>
            exfalso
            have hmem : c ∈ st.containers.filter
                (fun c => c.agentEnabled && c.service == some agent) :=
              List.mem_filter.mpr ⟨hcm, h⟩
            rw [hall] at hmem
            simp at hmem
        have hstep : (ensureAgentRunning st agent).1 =
            (ensureByNameLoop (st.containers.filter
              fun c => strContains c.cname agent)).1 := by
          simp [ensureAgentRunning, hcl, hrun, hall]
        rw [hstep, ensureByNameLoop_fst, anyFilter, if_pos rfl]
        refine listAnyCongr fun c hcm => ?_
        have h3 := hnosvc c hcm
        cases he : c.agentEnabled with
        | false => simp [he]
        | true =>
          have hsvc : (c.service == some agent) = false := by
            simpa [he] using h3
          simp [he, hsvc]

/-! ### Idle reaper (lifecycle._check_and_stop_idle_containers)

Times are in seconds, timeouts in minutes; the Python comparison of
idle_seconds divided by sixty against the timeout is the integer
comparison of now minus last against sixty times the timeout.  The loop
walks the running agent-labeled containers; a container with no recorded
activity is skipped; past the threshold it asks the host to stop the
container, and on success triggers a registry refresh.  The LAST_SEEN map
is never modified by the reaper. -/

/-- The outcome of one reaper tick: the names whose stop was requested,
the names whose successful stop triggered a refresh, and the activity map
after the tick. -/
structure ReapResult where
  requested : List String
  refreshed : List String
  lastSeen : List (String × Int)
deriving DecidableEq

/-- The reaper loop over the listed containers.  The name is the
compose-service label with the container name as default; the per-agent
timeout defaults to the global one (egress.get_idle_timeout); stopOk says
whether the stop call succeeds. -/
def reapLoop (tms : List (String × Int)) (g now : Int)
    (stopOk : String → Bool) (ls : List (String × Int)) :
    List DContainer → ReapResult
  | [] => ⟨[], [], ls⟩
  | c :: rest =>
    let r := reapLoop tms g now stopOk ls rest
    let name := c.service.getD c.cname
    match ls.lookup name with
    | none => r
    | some t =>
      if 60 * ((tms.lookup name).getD g) ≤ now - t then
        if stopOk name then ⟨name :: r.requested, name :: r.refreshed, r.lastSeen⟩
        else ⟨name :: r.requested, r.refreshed, r.lastSeen⟩
      else r

/-- One reaper tick: the Docker query lists running agent-labeled
containers, then the loop runs over them. -/
def checkAndStopIdle (tms : List (String × Int)) (g now : Int)
    (stopOk : String → Bool) (ls : List (String × Int))
    (containers : List DContainer) : ReapResult :=
  reapLoop tms g now stopOk ls
    (containers.filter fun c => c.running && c.agentEnabled)

/-- C6 counterexample: agent a has been idle for 900 seconds against a
15-minute timeout, the reaper stops it and refreshes the registry, yet its
activity record is still present afterwards: the reaper never clears
LAST_SEEN (clear_last_seen is only called by the manual stop endpoint). -/
theorem reaper_keeps_last_seen :
    (checkAndStopIdle [] 15 900 (fun _ => true) [("a", 0)]
        [⟨some "a", "ctr", true, true⟩]) = ⟨["a"], ["a"], [("a", 0)]⟩ ∧
    ((checkAndStopIdle [] 15 900 (fun _ => true) [("a", 0)]
        [⟨some "a", "ctr", true, true⟩]).lastSeen.lookup "a") = some 0 := by
  constructor <;> decide

theorem reapLoop_requested_mem (tms : List (String × Int)) (g now : Int)
    (stopOk : String → Bool) (ls : List (String × Int)) (name : String) :
    ∀ l : List DContainer,
      name ∈ (reapLoop tms g now stopOk ls l).requested ↔
        ∃ c ∈ l, c.service.getD c.cname = name ∧
          ∃ t, ls.lookup name = some t ∧
            60 * ((tms.lookup name).getD g) ≤ now - t := by
  intro l
  induction l with
  | nil => simp [reapLoop]
  | cons c rest ih =>
    cases hlk : ls.lookup (c.service.getD c.cname) with
    | none =>
      have hreq : (reapLoop tms g now stopOk ls (c :: rest)).requested =
          (reapLoop tms g now stopOk ls rest).requested := by
        simp only [reapLoop, hlk]
      rw [hreq, ih]
      constructor
      · rintro ⟨c2, hc2, hp⟩
        exact ⟨c2, List.mem_cons_of_mem _ hc2, hp⟩
      · rintro ⟨c2, hc2, hname, t, hl, hcond⟩
        rcases List.mem_cons.mp hc2 with rfl | hmem
        · rw [hname] at hlk
          rw [hlk] at hl
          cases hl
        · exact ⟨c2, hmem, hname, t, hl, hcond⟩
    | some t =>
      by_cases hcond :
          60 * ((tms.lookup (c.service.getD c.cname)).getD g) ≤ now - t
      · have hreq : (reapLoop tms g now stopOk ls (c :: rest)).requested =
            (c.service.getD c.cname) ::
              (reapLoop tms g now stopOk ls rest).requested := by
          simp only [reapLoop, hlk]
          rw [if_pos hcond]
          cases hstop : stopOk (c.service.getD c.cname) <;> simp
        rw [hreq]
        constructor
        · intro h
          rcases List.mem_cons.mp h with rfl | hmem
          · exact ⟨c, List.mem_cons_self _ _, rfl, t, hlk, hcond⟩
          · obtain ⟨c2, hc2, hp⟩ := ih.mp hmem
            exact ⟨c2, List.mem_cons_of_mem _ hc2, hp⟩
        · rintro ⟨c2, hc2, hname, t2, hl, hcond2⟩
          rcases List.mem_cons.mp hc2 with rfl | hmem
          · exact List.mem_cons.mpr (Or.inl hname.symm)
          · exact List.mem_cons.mpr
              (Or.inr (ih.mpr ⟨c2, hmem, hname, t2, hl, hcond2⟩))
      · have hreq : (reapLoop tms g now stopOk ls (c :: rest)).requested =
            (reapLoop tms g now stopOk ls rest).requested := by
          simp only [reapLoop, hlk]
          rw [if_neg hcond]
        rw [hreq, ih]
        constructor
        · rintro ⟨c2, hc2, hp⟩
          exact ⟨c2, List.mem_cons_of_mem _ hc2, hp⟩
        · rintro ⟨c2, hc2, hname, t2, hl, hcond2⟩
          rcases List.mem_cons.mp hc2 with rfl | hmem
          · exfalso
            rw [hname] at hlk hcond
            rw [hlk] at hl
            have ht : t = t2 := Option.some.inj hl
            rw [← ht] at hcond2
            exact hcond hcond2
          · exact ⟨c2, hmem, hname, t2, hl, hcond2⟩

theorem reapLoop_lastSeen (tms : List (String × Int)) (g now : Int)
    (stopOk : String → Bool) (ls : List (String × Int)) :
    ∀ l : List DContainer, (reapLoop tms g now stopOk ls l).lastSeen = ls := by
  intro l
  induction l with
  | nil => rfl
  | cons c rest ih =>
    simp only [reapLoop]
    cases hlk : ls.lookup (c.service.getD c.cname) with
    | none => simpa using ih
    | some t =>
      dsimp only
      by_cases hcond :
          60 * ((tms.lookup (c.service.getD c.cname)).getD g) ≤ now - t
      · rw [if_pos hcond]
        cases hstop : stopOk (c.service.getD c.cname) with
        | false => simp [hstop, ih]
        | true => simp [hstop, ih]
      · rw [if_neg hcond]
        exact ih

theorem reapLoop_refreshed (tms : List (String × Int)) (g now : Int)
    (stopOk : String → Bool) (ls : List (String × Int)) :
    ∀ l : List DContainer,
      (reapLoop tms g now stopOk ls l).refreshed =
        ((reapLoop tms g now stopOk ls l).requested).filter stopOk := by
  intro l
  induction l with
  | nil => rfl
  | cons c rest ih =>
    simp only [reapLoop]
    cases hlk : ls.lookup (c.service.getD c.cname) with
    | none => simpa using ih
    | some t =>
      dsimp only
      by_cases hcond :
          60 * ((tms.lookup (c.service.getD c.cname)).getD g) ≤ now - t
      · rw [if_pos hcond]
        cases hstop : stopOk (c.service.getD c.cname) with
        | false => simp [List.filter_cons, hstop, ih]
        | true => simp [List.filter_cons, hstop, ih]
      · rw [if_neg hcond]
        simpa using ih

/-- C6 (corrected): in one reaper tick, a stop is requested exactly for
the running agent-labeled containers that have a recorded activity and
whose idle seconds reach sixty times their timeout minutes (so containers
with no recorded activity are never reaped); every successful stop
triggers a refresh; but the activity map is unchanged afterwards, so the
reaper does not clear the stopped agent record. -/
theorem reaper_behavior (tms : List (String × Int)) (g now : Int)
    (stopOk : String → Bool) (ls : List (String × Int))
    (containers : List DContainer) :
    (∀ name,
      name ∈ (checkAndStopIdle tms g now stopOk ls containers).requested ↔
        ∃ c ∈ containers, c.running = true ∧ c.agentEnabled = true ∧
          c.service.getD c.cname = name ∧
          ∃ t, ls.lookup name = some t ∧
            60 * ((tms.lookup name).getD g) ≤ now - t) ∧
    (checkAndStopIdle tms g now stopOk ls containers).refreshed =
      ((checkAndStopIdle tms g now stopOk ls containers).requested).filter
        stopOk ∧
    (checkAndStopIdle tms g now stopOk ls containers).lastSeen = ls := by
  refine ⟨fun name => ?_, ?_, ?_⟩
  · unfold checkAndStopIdle
    rw [reapLoop_requested_mem]
    constructor
    · rintro ⟨c, hc, hp⟩
      have h2 := List.mem_filter.mp hc
      have h3 := h2.2
      simp only [Bool.and_eq_true] at h3
      exact ⟨c, h2.1, h3.1, h3.2, hp⟩
    · rintro ⟨c, hc, hrun, hen, hp⟩
      exact ⟨c, List.mem_filter.mpr ⟨hc, by simp [hrun, hen]⟩, hp⟩
  · exact reapLoop_refreshed tms g now stopOk ls _
  · exact reapLoop_lastSeen tms g now stopOk ls _

/-! ### Progress endpoint (post_progress, database.update_job_record)

The job store holds for each thread its state and progress.  The endpoint
rejects a body without a progress field with 400 and an unknown thread
with 404; otherwise it writes the progress field unconditionally, with no
check of the state. -/

/-- The job fields the progress endpoint touches or could guard on. -/
structure Job where
  state : String
  progress : Option String
deriving DecidableEq

/-- Setting a key in an association map, as a dictionary or an UPDATE by
key does: replace the first binding, append when absent. -/
def assocSet {β : Type} : List (String × β) → String → β → List (String × β)
  | [], tid, v => [(tid, v)]
  | (k, v0) :: rest, tid, v =>
    if k = tid then (k, v) :: rest else (k, v0) :: assocSet rest tid v

theorem assocSet_lookup {β : Type} :
    ∀ (l : List (String × β)) (k : String) (v : β),
      (assocSet l k v).lookup k = some v := by
  intro l
  induction l with
  | nil =>
    intro k v
    simp [assocSet, List.lookup]
  | cons kv rest ih =>
    intro k v
    obtain ⟨k0, v0⟩ := kv
    by_cases hk : k0 = k
    · subst hk
      simp [assocSet, List.lookup]
    · have hk2 : (k == k0) = false :=
        beq_eq_false_iff_ne.mpr fun h => hk h.symm
      simp [assocSet, hk, List.lookup, hk2, ih]

/-- post_progress of cmd/gateway/main.py over the store: 400 without a
progress field in the body, 404 for an unknown thread, otherwise write the
progress field of the job, leaving every other field in place. -/
def postProgress (store : List (String × Job)) (tid : String)
    (body : Option String) : List (String × Job) × Nat :=
  match body with
  | none => (store, 400)
  | some p =>
    match store.lookup tid with
    | none => (store, 404)
    | some j => (assocSet store tid { j with progress := some p }, 200)

/-- C7 counterexample: a job in the terminal state completed has its
progress overwritten by a later POST /progress write: the stored progress
changes from none to the posted value, so the write is not ignored. -/
theorem progress_write_on_terminal_changes_field :
    (postProgress [("t", ⟨"completed", none⟩)] "t" (some "p")).1.lookup "t" =
      some ⟨"completed", some "p"⟩ ∧
    ([("t", (⟨"completed", none⟩ : Job))].lookup "t") =
      some ⟨"completed", none⟩ ∧
    (⟨"completed", some "p"⟩ : Job) ≠ ⟨"completed", none⟩ := by
  refine ⟨by decide, by decide, by decide⟩

/-- C7 (corrected): a progress write for an existing thread returns 200
and stores the posted progress whatever the state of the job, terminal
states included; the state field itself is unchanged. -/
theorem progress_write_always_updates (store : List (String × Job))
    (tid : String) (p : String) (j : Job)
    (hj : store.lookup tid = some j) :
    (postProgress store tid (some p)).2 = 200 ∧
    (postProgress store tid (some p)).1.lookup tid =
      some { j with progress := some p } ∧
    ({ j with progress := some p } : Job).state = j.state := by
  refine ⟨by simp [postProgress, hj], ?_, rfl⟩
  simp only [postProgress, hj]
  exact assocSet_lookup store tid _

/-- C7 witness: the progress write evaluated on a completed job. -/
theorem progress_write_always_updates_witness :
    ([("t", (⟨"completed", none⟩ : Job))].lookup "t" =
      some (⟨"completed", none⟩ : Job)) ∧
    ((postProgress [("t", ⟨"completed", none⟩)] "t" (some "pp")).2 = 200 ∧
      (postProgress [("t", ⟨"completed", none⟩)] "t" (some "pp")).1.lookup "t" =
        some { (⟨"completed", none⟩ : Job) with progress := some "pp" } ∧
      ({ (⟨"completed", none⟩ : Job) with progress := some "pp" } : Job).state =
        (⟨"completed", none⟩ : Job).state) :=
  ⟨by decide, progress_write_always_updates [("t", ⟨"completed", none⟩)] "t"
    "pp" ⟨"completed", none⟩ (by decide)⟩

/-! ### Invocation prelude (invoke_async of cmd/gateway/main.py)

The handler first refreshes and resolves the agent, raising 404 when the
agent is neither running nor startable; it then records agent activity in
the lifecycle map, and only afterwards checks the Authorization header,
raising 400 when it does not start with the bearer marker; the job row is
inserted later still.  The model returns the outcome, the activity map
after the call, and whether the insert call site was reached. -/

/-- Whether a string starts with the given text, as Python startswith. -/
def strStartsWith (s pre : String) : Bool :=
  List.isPrefixOf pre.data s.data

/-- The three outcomes of the prelude. -/
inductive InvokeOutcome where
  | notFound
  | badRequest
  | accepted
deriving DecidableEq

/-- Outcome, activity map and whether a job row was inserted. -/
structure InvokeResult where
  outcome : InvokeOutcome
  lastSeen : List (String × Int)
  jobInserted : Bool
deriving DecidableEq

/-- The prelude of invoke_async: resolve the agent (404), record activity,
check the bearer header (400), then reach the insert of the job row. -/
def invokePrelude (agents : List String) (startable : String → Bool)
    (ls : List (String × Int)) (agent auth : String) (now : Int) :
    InvokeResult :=
  if (agents.contains agent || startable agent) = true then
    let ls2 := assocSet ls agent now
    if strStartsWith auth "Bearer " = true then
      ⟨InvokeOutcome.accepted, ls2, true⟩
    else ⟨InvokeOutcome.badRequest, ls2, false⟩
  else ⟨InvokeOutcome.notFound, ls, false⟩

/-- C8 counterexample: a request without a bearer token addressed to an
unknown agent is answered 404, not 400, because the agent check runs
before the header check; no job row is created either way. -/
theorem invoke_unknown_agent_no_bearer_404 :
    (invokePrelude [] (fun _ => false) [] "nope" "" 0).outcome =
      InvokeOutcome.notFound ∧
    InvokeOutcome.notFound ≠ InvokeOutcome.badRequest ∧
    (invokePrelude [] (fun _ => false) [] "nope" "" 0).jobInserted = false := by
  refine ⟨by decide, by decide, by decide⟩

/-- C8 (corrected): for a request whose Authorization header does not
start with the bearer marker, the gateway answers 400 whenever the agent
is known (running or startable), and no job row is created whatever the
agent resolution outcome; an unknown agent is answered 404 instead. -/
theorem invoke_missing_bearer (agents : List String)
    (startable : String → Bool) (ls : List (String × Int))
    (agent auth : String) (now : Int)
    (hauth : strStartsWith auth "Bearer " = false) :
    ((agents.contains agent || startable agent) = true →
      (invokePrelude agents startable ls agent auth now).outcome =
        InvokeOutcome.badRequest) ∧
    (invokePrelude agents startable ls agent auth now).jobInserted = false := by
  constructor
  · intro hknown
    have hk : agent ∈ agents ∨ startable agent = true := by
      simpa using hknown
    simp [invokePrelude, hk, hauth]
  · by_cases hk : agent ∈ agents ∨ startable agent = true
    · simp [invokePrelude, hk, hauth]
    · simp [invokePrelude, hk]

/-- C8 witness: the missing-bearer response for the known agent hello. -/
theorem invoke_missing_bearer_witness :
    strStartsWith "" "Bearer " = false ∧
    ((((["hello"] : List String).contains "hello"
        || (fun _ => false) "hello") = true →
      (invokePrelude ["hello"] (fun _ => false) [] "hello" "" 5).outcome =
        InvokeOutcome.badRequest) ∧
    (invokePrelude ["hello"] (fun _ => false) [] "hello" "" 5).jobInserted =
      false) :=
  ⟨by decide,
    invoke_missing_bearer ["hello"] (fun _ => false) [] "hello" "" 5
      (by decide)⟩

/-- C10 (confirmed): activity is recorded before the Authorization check,
so a request for an agent of the running map whose header carries no
bearer token is answered 400 and still resets the last-seen time of the
agent to the request time. -/
theorem invoke_records_activity_before_auth (agents : List String)
    (startable : String → Bool) (ls : List (String × Int))
    (agent auth : String) (now : Int)
    (hknown : agents.contains agent = true)
    (hauth : strStartsWith auth "Bearer " = false) :
    (invokePrelude agents startable ls agent auth now).outcome =
      InvokeOutcome.badRequest ∧
    ((invokePrelude agents startable ls agent auth now).lastSeen.lookup agent)
      = some now := by
  have hk : agent ∈ agents ∨ startable agent = true :=
    Or.inl (by simpa using hknown)
  constructor
  · simp [invokePrelude, hk, hauth]
  · simp [invokePrelude, hk, hauth, assocSet_lookup]

/-- C10 witness: the rejected request still resets the idle clock. -/
theorem invoke_records_activity_before_auth_witness :
    (["hello"] : List String).contains "hello" = true ∧
    strStartsWith "x" "Bearer " = false ∧
    ((invokePrelude ["hello"] (fun _ => false) [("hello", 1)] "hello" "x"
        42).outcome = InvokeOutcome.badRequest ∧
      ((invokePrelude ["hello"] (fun _ => false) [("hello", 1)] "hello" "x"
        42).lastSeen.lookup "hello") = some 42) :=
  ⟨by decide, by decide,
    invoke_records_activity_before_auth ["hello"] (fun _ => false)
      [("hello", 1)] "hello" "x" 42 (by decide) (by decide)⟩

/-! ### Agent listing (list_agents_filtered of cmd/gateway/main.py)

One registry snapshot: the AGENTS keys, the configured names, all
agent-labeled containers, and whether the Docker client is available.  In
a consistent snapshot the running agents are among the agent-labeled
containers. -/

/-- One registry snapshot as the POST /agents handler reads it. -/
structure RegistrySnapshot where
  running : Finset String
  configured : Finset String
  allCtrs : Finset String
  clientAvailable : Bool

/-- list_agents_filtered: without Docker, stopped is configured minus
running; with Docker, stopped is the non-running containers joined with
the configured names that have no container; any state other than running
or stopped selects the union. -/
def listAgentsFiltered (snap : RegistrySnapshot) (state : String) :
    Finset String :=
  if snap.clientAvailable = false then
    let stopped := snap.configured \ snap.running
    if state = "running" then snap.running
    else if state = "stopped" then stopped
    else snap.running ∪ stopped
  else
    let stopped := (snap.allCtrs \ snap.running) ∪
      (snap.configured \ snap.allCtrs)
    if state = "running" then snap.running
    else if state = "stopped" then stopped
    else snap.running ∪ stopped

/-- C9 (confirmed): on every snapshot whose running agents are among the
agent-labeled containers, the names listed for state all are exactly the
union of those listed for running and for stopped, and the running and
stopped sets are disjoint. -/
theorem agents_list_all_union_disjoint (snap : RegistrySnapshot)
    (hsub : snap.running ⊆ snap.allCtrs) :
    listAgentsFiltered snap "all" =
      listAgentsFiltered snap "running" ∪ listAgentsFiltered snap "stopped" ∧
    Disjoint (listAgentsFiltered snap "running")
      (listAgentsFiltered snap "stopped") := by
  cases hcl : snap.clientAvailable with
  | false =>
    have er : listAgentsFiltered snap "running" = snap.running := by
      simp [listAgentsFiltered, hcl]
    have es : listAgentsFiltered snap "stopped" =
        snap.configured \ snap.running := by
      simp [listAgentsFiltered, hcl]
    have ea : listAgentsFiltered snap "all" =
        snap.running ∪ (snap.configured \ snap.running) := by
      simp [listAgentsFiltered, hcl]
    rw [er, es, ea]
    refine ⟨rfl, ?_⟩
    rw [Finset.disjoint_left]
    intro a ha hb
    exact (Finset.mem_sdiff.mp hb).2 ha
  | true =>
    have er : listAgentsFiltered snap "running" = snap.running := by
      simp [listAgentsFiltered, hcl]
    have es : listAgentsFiltered snap "stopped" =
        (snap.allCtrs \ snap.running) ∪ (snap.configured \ snap.allCtrs) := by
      simp [listAgentsFiltered, hcl]
    have ea : listAgentsFiltered snap "all" =
        snap.running ∪
          ((snap.allCtrs \ snap.running) ∪
            (snap.configured \ snap.allCtrs)) := by
      simp [listAgentsFiltered, hcl]
    rw [er, es, ea]
    refine ⟨rfl, ?_⟩
    rw [Finset.disjoint_left]
    intro a ha hb
    rcases Finset.mem_union.mp hb with h1 | h2
    · exact (Finset.mem_sdiff.mp h1).2 ha
    · exact (Finset.mem_sdiff.mp h2).2 (hsub ha)

/-- C9 witness: the listing relation evaluated on a concrete snapshot with
one running container, one stopped container and one configured but not
created agent. -/
theorem agents_list_all_union_disjoint_witness :
    (⟨{"a"}, {"a", "c"}, {"a", "b"}, true⟩ : RegistrySnapshot).running ⊆
      (⟨{"a"}, {"a", "c"}, {"a", "b"}, true⟩ : RegistrySnapshot).allCtrs ∧
    (listAgentsFiltered ⟨{"a"}, {"a", "c"}, {"a", "b"}, true⟩ "all" =
      listAgentsFiltered ⟨{"a"}, {"a", "c"}, {"a", "b"}, true⟩ "running" ∪
        listAgentsFiltered ⟨{"a"}, {"a", "c"}, {"a", "b"}, true⟩ "stopped" ∧
    Disjoint (listAgentsFiltered ⟨{"a"}, {"a", "c"}, {"a", "b"}, true⟩
        "running")
      (listAgentsFiltered ⟨{"a"}, {"a", "c"}, {"a", "b"}, true⟩ "stopped")) :=
  ⟨by decide,
    agents_list_all_union_disjoint ⟨{"a"}, {"a", "c"}, {"a", "b"}, true⟩
      (by decide)⟩
